import Mathlib

/-!
Verification of the knowledge ingestion and retrieval core (`src/core/retrieval.ts`
and `src/core/loaders.ts`).

Modelling conventions:
* A JavaScript string is modelled as `List Char` (`Str`).  JS string length
  counts UTF-16 code units while `List Char` counts unicode scalars; the two
  agree on all characters relevant here.  `String.prototype.trim` removes a few
  exotic unicode spaces beyond `Char.isWhitespace` (space, tab, CR, LF); the
  model uses `Char.isWhitespace`, which agrees on ASCII text.
* JS numbers are modelled as `ℚ`.  `Math.sqrt` is an external platform routine
  and is passed as an explicit function parameter `sq`; IEEE-754 specific
  behaviour (NaN) is not representable in `ℚ` and is discussed where relevant.
* `crypto.subtle.digest("SHA-256")` is an external platform routine; the id
  function is parametrised by the hash `h : Str → Str`, while the pre-hash
  string construction (the part implemented in the repository) is modelled
  exactly (`preHash`).
* The libsql database is modelled as two in-memory relations (lists of rows).
  The DDL executed by `build()` declares `embeddings(id TEXT PRIMARY KEY,
  model TEXT NOT NULL, embedding BLOB NOT NULL)` with **no** foreign key and
  no `ON DELETE CASCADE`, so `DELETE FROM chunks` leaves `embeddings` rows in
  place; the model reflects exactly the statements the code issues.
* The OpenAI embeddings endpoint is an external collaborator modelled as a
  function `provider : List Str → Option (List (List ℚ))`, `none` standing for
  a failed call; a transaction that fails mid-way is rolled back (the state
  before the transaction is kept).
* The filesystem is modelled as a tree (`FS`) in which every point where
  `readdirSync` / `statSync` / `readFileSync` can throw carries an explicit
  error alternative.
-/

abbrev Str := List Char

/-- `type Bucket = "base" | "public" | "private"` from `loaders.ts`. -/
inductive Bucket where
  | base
  | pub
  | priv
deriving DecidableEq, Repr

/-- The literal string of a bucket label, as interpolated by the source. -/
def Bucket.str : Bucket → Str
  | .base => "base".data
  | .pub => "public".data
  | .priv => "private".data

/-! ## Chunker (`chunk` in retrieval.ts lines 7-18) -/

/-- `text.replace(/\r/g, "")`. -/
def removeCR (t : Str) : Str := t.filter (fun c => decide (c ≠ '\r'))

/-- `s.split("\n")` with JS semantics: `"".split` gives `[""]`, a trailing
separator yields a trailing empty field. -/
def splitNL : Str → List Str
  | [] => [[]]
  | c :: rest =>
    let r := splitNL rest
    if c = '\n' then [] :: r
    else (c :: r.headD []) :: r.tail

/-- `s.trim()`: strip leading and trailing whitespace. -/
def trimStr (s : Str) : Str :=
  ((s.dropWhile Char.isWhitespace).reverse.dropWhile Char.isWhitespace).reverse

/-- The loop body of `chunk`: `buf` starts as `""`; for each line, if
`` `${buf}\n${line}` `` would exceed `max` characters the trimmed buffer is
pushed (unconditionally, even when it trims to `""`) and the buffer restarts
from the line; otherwise the line is appended.  After the last line the buffer
is pushed only when it trims non-empty. -/
def chunkLoop (max : Nat) : List Str → Str → List Str
  | [], buf => if trimStr buf = [] then [] else [trimStr buf]
  | line :: rest, buf =>
    if max < (buf ++ '\n' :: line).length then trimStr buf :: chunkLoop max rest line
    else chunkLoop max rest (buf ++ '\n' :: line)

/-- `chunk(text, max = 900)`. -/
def chunk (text : Str) (max : Nat := 900) : List Str :=
  chunkLoop max (splitNL (removeCR text)) []

/-! ## Content addressing (retrieval.ts lines 20-26 and 66) -/

/-- The string `` `${d.bucket}|${d.source}|${part}` `` that `build()` feeds to
`sha256`. -/
def preHash (b : Bucket) (source text : Str) : Str :=
  Bucket.str b ++ '|' :: (source ++ '|' :: text)

/-- The chunk id: the digest of the pre-hash string.  `sha256` itself is the
platform's SHA-256 (an external routine), abstracted as `h`. -/
def chunkId (h : Str → Str) (b : Bucket) (source text : Str) : Str :=
  h (preHash b source text)

/-! ## Document loader (`loaders.ts`) -/

/-- A filesystem node.  `file` carries the outcome of `readFileSync` on it;
`dirOk` lists entries as `readdirSync` returns them, an entry whose node is
`none` being one on which `statSync` throws; `dirErr` is a directory on which
`readdirSync` throws an I/O error; `absent` is a path on which `readdirSync`
throws ENOENT (the directory does not exist). -/
inductive FS where
  | file (content : Except Str Str)
  | dirOk (entries : List (Str × Option FS))
  | dirErr (msg : Str)
  | absent

/-- `join(dir, e)` with the POSIX separator. -/
def joinP (p name : Str) : Str := p ++ '/' :: name

/-- `p.endsWith(".md")`. -/
def isMd (p : Str) : Bool := ".md".data.isSuffixOf p

mutual
/-- `walk(dir)` from loaders.ts.  The whole loop sits inside
`try { ... } catch { /* bucket may not exist */ }`, so a missing directory, a
`readdirSync` failure and a `statSync` failure all end the walk silently with
the items collected so far; `walk` itself can never throw.  It returns each
matching path paired with the node found there (path resolution on the real
filesystem is functional, so carrying the node is equivalent to re-resolving
the returned path). -/
def walk (fs : FS) (p : Str) : List (Str × FS) :=
  match fs with
  | .absent => []
  | .file _ => []
  | .dirErr _ => []
  | .dirOk entries => walkEntries p entries
/-- One pass of `walk`'s `for` loop over the listing of `p`.  A `statSync`
failure (entry `none`) throws inside the loop; the surrounding catch keeps the
items pushed so far and drops the rest of the listing. -/
def walkEntries (p : Str) (es : List (Str × Option FS)) : List (Str × FS) :=
  match es with
  | [] => []
  | (_, none) :: _ => []
  | (name, some fs) :: rest =>
    (match fs with
     | .file c => if isMd (joinP p name) then [(joinP p name, .file c)] else []
     | _ => walk fs (joinP p name)) ++ walkEntries p rest
end

/-- `LoadedDoc` from loaders.ts (`id` and `source` are both the file path). -/
structure Doc where
  id : Str
  text : Str
  source : Str
  bucket : Bucket
deriving DecidableEq, Repr

/-- The root knowledge directory: its three fixed bucket subdirectories. -/
structure Root where
  base : FS
  pub : FS
  priv : FS

/-- The body of `loadKnowledge`'s inner loop for one bucket: `readFileSync(f)`
on every path returned by `walk`, pushing a `LoadedDoc` per file; the first
read failure throws out of the loader (`readFileSync` on a non-file throws
EISDIR). -/
def readDocs (b : Bucket) : List (Str × FS) → Except Str (List Doc)
  | [] => .ok []
  | q :: rest =>
    match q.2 with
    | .file (.ok c) =>
      match readDocs b rest with
      | .error e => .error e
      | .ok ds => .ok (⟨q.1, c, q.1, b⟩ :: ds)
    | .file (.error e) => .error e
    | _ => .error "EISDIR".data

/-- `loadKnowledge(root)`: walk `join(root, bucket)` for the three buckets in
order and read every file found; the first thrown read error propagates. -/
def loadKnowledge (rootPath : Str) (root : Root) : Except Str (List Doc) :=
  match readDocs .base (walk root.base (joinP rootPath (Bucket.str .base))) with
  | .error e => .error e
  | .ok a =>
    match readDocs .pub (walk root.pub (joinP rootPath (Bucket.str .pub))) with
    | .error e => .error e
    | .ok b =>
      match readDocs .priv (walk root.priv (joinP rootPath (Bucket.str .priv))) with
      | .error e => .error e
      | .ok c => .ok (a ++ b ++ c)

/-! ## The store (`VectorStore`) -/

/-- A row of the `chunks` relation. -/
structure ChunkRow where
  id : Str
  bucket : Bucket
  source : Str
  text : Str
deriving DecidableEq, Repr

/-- A row of the `embeddings` relation. -/
structure EmbRow where
  id : Str
  model : Str
  embedding : List ℚ
deriving DecidableEq, Repr

/-- The two persistent relations. -/
structure DB where
  chunks : List ChunkRow
  embeddings : List EmbRow
deriving DecidableEq, Repr

/-- `EMB_MODEL`. -/
def embModel : Str := "text-embedding-3-large".data

/-- Structural helper for `batchesOf`: the fuel bounds the number of slices
(any fuel at least the list's length gives the same result). -/
def batchesOfAux (n : Nat) : Nat → List α → List (List α)
  | 0, _ => []
  | _, [] => []
  | fuel + 1, x :: xs => (x :: xs.take (n - 1)) :: batchesOfAux n fuel (xs.drop (n - 1))

/-- The id batching `for (let i = 0; i < l.length; i += n) l.slice(i, i + n)`
used with `n = 500` for SQL parameter limits and `n = 96` for embedding
batches. -/
def batchesOf (n : Nat) (l : List α) : List (List α) := batchesOfAux n l.length l

/-- `cleanupStaleChunks(currentIds)` (retrieval.ts lines 141-169): read all
stored chunk ids, compute the stale ones, and issue
`DELETE FROM chunks WHERE id IN (...)` in batches of 500.  The schema declares
no foreign key and no cascade, so these statements touch only the `chunks`
relation. -/
def cleanupStaleChunks (db : DB) (currentIds : List Str) : DB :=
  let dbIds := db.chunks.map (fun c => c.id)
  let staleIds := dbIds.filter (fun i => decide (i ∉ currentIds))
  if staleIds.isEmpty then db
  else
    (batchesOf 500 staleIds).foldl
      (fun acc batch => { acc with chunks := acc.chunks.filter (fun c => decide (c.id ∉ batch)) })
      db

/-- The chunk rows `build()` computes from the loaded documents:
`id = sha256(`${d.bucket}|${d.source}|${part}`)` for every `part` of
`chunk(d.text)`. -/
def rowsOf (h : Str → Str) (docs : List Doc) : List ChunkRow :=
  docs.flatMap (fun d =>
    (chunk d.text).map (fun part => ⟨chunkId h d.bucket d.source part, d.bucket, d.source, part⟩))

/-- The upsert loop: `INSERT INTO chunks ... ON CONFLICT(id) DO NOTHING` for
every row, in one transaction (conflicts are no-ops, so the transaction cannot
fail and is modelled by its committed result). -/
def upsertChunks (db : DB) (rows : List ChunkRow) : DB :=
  rows.foldl
    (fun acc r =>
      if acc.chunks.any (fun c => decide (c.id = r.id)) then acc
      else { acc with chunks := acc.chunks ++ [r] })
    db

/-- The missing-embeddings diff: for each 500-batch of the candidate ids,
`SELECT id FROM chunks WHERE id IN (batch) EXCEPT SELECT id FROM embeddings`
(`EXCEPT` returns distinct rows), accumulating into `missing`. -/
def missingIds (db : DB) (ids : List Str) : List Str :=
  (batchesOf 500 ids).foldl
    (fun acc batch =>
      acc ++
        (((db.chunks.map (fun c => c.id)).filter (fun i => decide (i ∈ batch))).dedup.filter
          (fun i => decide (i ∉ db.embeddings.map (fun e => e.id)))))
    []

/-- `textById.get(id) || ""` where `textById = new Map(rows.map(r => [r.id,
r.text]))`; for duplicate ids a JS `Map` keeps the last entry. -/
def textOf (rows : List ChunkRow) (i : Str) : Str :=
  ((rows.reverse.find? (fun r => decide (r.id = i))).map (fun r => r.text)).getD []

/-- The rows inserted for one embedding batch: `emb.data.forEach((d, idx))`
pairs the returned vectors with `batchIds[idx]` and stores each with
`EMB_MODEL`. -/
def mkEmbRows (batchIds : List Str) (vecs : List (List ℚ)) : List EmbRow :=
  (batchIds.zip vecs).map (fun q => ⟨q.1, embModel, q.2⟩)

/-- `INSERT INTO embeddings(id,model,embedding) VALUES(?,?,?)` — a plain
insert, failing on a primary-key conflict. -/
def insertEmbRow (l : List EmbRow) (r : EmbRow) : Option (List EmbRow) :=
  if l.any (fun e => decide (e.id = r.id)) then none else some (l ++ [r])

/-- One embedding transaction: all inserts of the batch, or (on any failure
and rollback) nothing. -/
def insertEmbBatch (l : List EmbRow) (rows : List EmbRow) : Option (List EmbRow) :=
  rows.foldlM insertEmbRow l

/-- The embedding loop of `build()` (lines 114-135): one provider call per
batch; on success the batch's rows are committed in one transaction; a failed
call or a failed transaction aborts the build, keeping everything committed so
far.  Returns (final state, number of provider calls made, success flag). -/
def embedPhase (provider : List Str → Option (List (List ℚ))) (tf : Str → Str) :
    List (List Str) → DB → DB × Nat × Bool
  | [], db => (db, 0, true)
  | batch :: rest, db =>
    match provider (batch.map tf) with
    | none => (db, 1, false)
    | some vecs =>
      match insertEmbBatch db.embeddings (mkEmbRows batch vecs) with
      | none => (db, 1, false)
      | some embs =>
        let r := embedPhase provider tf rest { db with embeddings := embs }
        (r.1, r.2.1 + 1, r.2.2)

/-- `build()` (retrieval.ts lines 48-138) after the documents have been
loaded: chunk and address every document, clean up stale ids, upsert, diff,
and embed the missing ids in batches of 96 (the `BATCH` constant).  Returns
(final state, number of embedding-provider calls, success flag). -/
def build (h : Str → Str) (provider : List Str → Option (List (List ℚ)))
    (docs : List Doc) (db : DB) : DB × Nat × Bool :=
  let rows := rowsOf h docs
  let currentIds := rows.map (fun r => r.id)
  let db1 := cleanupStaleChunks db currentIds
  let db2 := upsertChunks db1 rows
  let missing := missingIds db2 currentIds
  if missing.isEmpty then (db2, 0, true)
  else embedPhase provider (textOf rows) (batchesOf 96 missing) db2

/-! ## Query path (`cosine`, `query`) -/

/-- The accumulators of `cosine`'s loop: `(dot, na, nb)` summed over the
indices of `a` (the loop bound is `a.length`; an out-of-range read of `b`,
which in JS yields `undefined` and poisons the floats to NaN, is modelled as
0 — the stored vectors of one model share a dimension). -/
def cosineSums : List ℚ → List ℚ → ℚ × ℚ × ℚ
  | [], _ => (0, 0, 0)
  | x :: xs, b =>
    let y := b.headD 0
    let r := cosineSums xs b.tail
    (x * y + r.1, x * x + r.2.1, y * y + r.2.2)

/-- `cosine(a, b) = dot / (Math.sqrt(na) * Math.sqrt(nb))` with no guard on a
zero divisor.  `Math.sqrt` is the platform's square root, passed as `sq`. -/
def cosine (sq : ℚ → ℚ) (a b : List ℚ) : ℚ :=
  let r := cosineSums a b
  r.1 / (sq r.2.1 * sq r.2.2)

/-- The candidate rows of `query`:
`SELECT c.id, c.text, e.embedding FROM chunks c JOIN embeddings e ON e.id =
c.id WHERE c.bucket IN (allowed)` — the bucket filter is exact membership in
the literal list `allowed`, with no hierarchy. -/
def candidates (db : DB) (allowed : List Bucket) : List (Str × List ℚ) :=
  (db.chunks.filter (fun c => decide (c.bucket ∈ allowed))).flatMap
    (fun c =>
      (db.embeddings.filter (fun e => decide (e.id = c.id))).map
        (fun e => (c.text, e.embedding)))

/-- `scored.sort((a, b) => b.s - a.s)`: a stable sort by score descending
(JS `Array.prototype.sort` is stable). -/
def insertDesc (x : ℚ × Str) : List (ℚ × Str) → List (ℚ × Str)
  | [] => [x]
  | y :: ys => if y.1 ≤ x.1 then x :: y :: ys else y :: insertDesc x ys

/-- Stable insertion sort realising the descending comparator. -/
def sortDesc : List (ℚ × Str) → List (ℚ × Str)
  | [] => []
  | x :: xs => insertDesc x (sortDesc xs)

/-- `query(q, k, allowed)` (lines 184-206) after the query text has been
embedded to `qv`: score every candidate with `cosine`, sort descending and
return the texts of the top `k`. -/
def query (sq : ℚ → ℚ) (db : DB) (qv : List ℚ) (k : Nat) (allowed : List Bucket) : List Str :=
  let scored := (candidates db allowed).map (fun r => (cosine sq qv r.2, r.1))
  ((sortDesc scored).take k).map (fun r => r.2)

/-! ## Reference functions used only to state properties -/

/-- `"\n".intercalate`, the joined text a group of consecutive lines
contributes to one chunk. -/
def joinNL : List Str → Str
  | [] => []
  | [g] => g
  | g :: gs => g ++ '\n' :: joinNL gs

/-- The chunks a grouping of the document's lines produces: every group is
flushed as its trimmed joined text, except that the final group is dropped
when it trims to nothing. -/
def emitGroups : List (List Str) → List Str
  | [] => []
  | [g] => if trimStr (joinNL g) = [] then [] else [trimStr (joinNL g)]
  | g :: gs => trimStr (joinNL g) :: emitGroups gs

/-- Each line prefixed by a newline, concatenated: the exact buffer `chunk`
accumulates when nothing is flushed. -/
def prepNL (ls : List Str) : Str := (ls.map (fun l => '\n' :: l)).flatten

/-- The rows committed for one batch, as a function of the provider's answer
on it (used to state per-batch atomicity). -/
def batchRows (provider : List Str → Option (List (List ℚ))) (tf : Str → Str)
    (b : List Str) : List EmbRow :=
  match provider (b.map tf) with
  | some v => mkEmbRows b v
  | none => []

/-- `Except.isOk`. -/
def exceptOk : Except ε α → Bool
  | .ok _ => true
  | .error _ => false

/-- An `FS` node on which `readFileSync` would throw. -/
def isErrFile : FS → Bool
  | .file (.error _) => true
  | _ => false

/-- The loop invariant of the chunker: the accumulated buffer against the
lines already in the open group. -/
def BufInv (buf : Str) (g : List Str) : Prop :=
  (g = [] ∧ buf = []) ∨ (g ≠ [] ∧ (buf = joinNL g ∨ buf = '\n' :: joinNL g))

/-! ## Lemmas about the chunker -/

theorem isWhitespace_nl : Char.isWhitespace '\n' = true := by decide

theorem trim_nl (s : Str) : trimStr ('\n' :: s) = trimStr s := by
  simp [trimStr, List.dropWhile_cons, isWhitespace_nl]

theorem trim_length_le (s : Str) : (trimStr s).length ≤ s.length := by
  have h1 : (s.dropWhile Char.isWhitespace).length ≤ s.length :=
    (List.dropWhile_sublist _).length_le
  have h2 : ((s.dropWhile Char.isWhitespace).reverse.dropWhile Char.isWhitespace).length ≤
      (s.dropWhile Char.isWhitespace).reverse.length :=
    (List.dropWhile_sublist _).length_le
  simp only [trimStr, List.length_reverse] at *
  omega

theorem mem_trim (c : Char) (s : Str) (h : c ∈ trimStr s) : c ∈ s := by
  simp only [trimStr, List.mem_reverse] at h
  have h2 := List.Sublist.mem h (List.dropWhile_sublist Char.isWhitespace)
  rw [List.mem_reverse] at h2
  exact List.Sublist.mem h2 (List.dropWhile_sublist _)

theorem splitNL_ne_nil (s : Str) : splitNL s ≠ [] := by
  cases s with
  | nil => simp [splitNL]
  | cons c rest =>
    simp only [splitNL]
    split <;> simp

theorem mem_splitNL_no_nl (s : Str) : ∀ l ∈ splitNL s, '\n' ∉ l := by
  induction s with
  | nil => intro l hl; simp [splitNL] at hl; simp [hl]
  | cons c rest ih =>
    intro l hl
    simp only [splitNL] at hl
    by_cases hc : c = '\n'
    · simp [hc] at hl
      rcases hl with h | h
      · simp [h]
      · exact ih l h
    · simp [hc] at hl
      rcases hl with h | h
      · subst h
        intro hmem
        rcases List.mem_cons.mp hmem with h | h
        · exact hc h.symm
        · rcases hr : splitNL rest with _ | ⟨g, gs⟩
          · exact splitNL_ne_nil rest hr
          · rw [hr] at h
            exact ih g (by rw [hr]; exact List.mem_cons_self g gs) (by simpa using h)
      · rcases hr : splitNL rest with _ | ⟨g, gs⟩
        · exact absurd hr (splitNL_ne_nil rest)
        · rw [hr] at h
          exact ih l (by rw [hr]; exact List.mem_cons_of_mem g h)

theorem joinNL_cons_cons (x y : Str) (ys : List Str) :
    joinNL (x :: y :: ys) = x ++ '\n' :: joinNL (y :: ys) := rfl

theorem joinNL_append_single (g : List Str) (l : Str) (hg : g ≠ []) :
    joinNL (g ++ [l]) = joinNL g ++ '\n' :: l := by
  induction g with
  | nil => exact absurd rfl hg
  | cons x xs ih =>
    cases xs with
    | nil => simp [joinNL]
    | cons y ys =>
      have h1 : (x :: y :: ys) ++ [l] = x :: y :: (ys ++ [l]) := by simp
      rw [h1, joinNL_cons_cons x y (ys ++ [l]), joinNL_cons_cons x y ys]
      have h2 := ih (by simp)
      simp only [List.cons_append] at h2
      rw [h2]
      simp

theorem BufInv.trim_eq {buf : Str} {g : List Str} (h : BufInv buf g) :
    trimStr buf = trimStr (joinNL g) := by
  rcases h with ⟨hg, hb⟩ | ⟨_, hb | hb⟩
  · subst hg; subst hb; rfl
  · rw [hb]
  · rw [hb, trim_nl]

theorem chunkLoop_grouping (max : Nat) :
    ∀ (ls : List Str) (buf : Str) (g : List Str), BufInv buf g →
      ∃ groups : List (List Str), groups ≠ [] ∧ groups.flatten = g ++ ls ∧
        chunkLoop max ls buf = emitGroups groups := by
  intro ls
  induction ls with
  | nil =>
    intro buf g hinv
    refine ⟨[g], by simp, by simp, ?_⟩
    simp only [chunkLoop, emitGroups, hinv.trim_eq]
  | cons line rest ih =>
    intro buf g hinv
    by_cases hcond : max < (buf ++ '\n' :: line).length
    · -- flush the buffer, restart from `line`
      obtain ⟨groups', hne', hflat', heq'⟩ :=
        ih line [line] (Or.inr ⟨by simp, Or.inl rfl⟩)
      refine ⟨g :: groups', by simp, by simp [hflat'], ?_⟩
      rcases groups' with _ | ⟨g', gs'⟩
      · exact absurd rfl hne'
      · have : emitGroups (g :: g' :: gs') = trimStr (joinNL g) :: emitGroups (g' :: gs') := by
          simp [emitGroups]
        rw [this, ← heq', ← hinv.trim_eq]
        simp only [chunkLoop, if_pos hcond]
    · -- append the line to the buffer
      have hinv' : BufInv (buf ++ '\n' :: line) (g ++ [line]) := by
        rcases hinv with ⟨hg, hb⟩ | ⟨hg, hb | hb⟩
        · subst hg; subst hb
          exact Or.inr ⟨by simp, Or.inr (by simp [joinNL])⟩
        · subst hb
          exact Or.inr ⟨by simp, Or.inl (by rw [joinNL_append_single g line hg])⟩
        · subst hb
          exact Or.inr ⟨by simp, Or.inr (by rw [joinNL_append_single g line hg]; simp)⟩
      obtain ⟨groups', hne', hflat', heq'⟩ := ih (buf ++ '\n' :: line) (g ++ [line]) hinv'
      refine ⟨groups', hne', by simp [hflat'], ?_⟩
      rw [← heq']
      simp only [chunkLoop, if_neg hcond]

theorem chunkLoop_bound (max : Nat) :
    ∀ (ls : List Str) (buf : Str) (L : List Str), (∀ l ∈ ls, l ∈ L) →
      (buf.length ≤ max ∨ ∃ l ∈ L, buf = l) →
      ∀ c ∈ chunkLoop max ls buf, c.length ≤ max ∨ ∃ l ∈ L, c = trimStr l := by
  intro ls
  induction ls with
  | nil =>
    intro buf L _ hbuf c hc
    simp only [chunkLoop] at hc
    split at hc
    · simp at hc
    · rcases List.mem_singleton.mp hc with rfl
      rcases hbuf with h | ⟨l, hl, heq⟩
      · exact Or.inl ((trim_length_le buf).trans h)
      · exact Or.inr ⟨l, hl, by rw [heq]⟩
  | cons line rest ih =>
    intro buf L hls hbuf c hc
    have hline : line ∈ L := hls line (List.mem_cons_self _ _)
    have hrest : ∀ l ∈ rest, l ∈ L := fun l hl => hls l (List.mem_cons_of_mem _ hl)
    simp only [chunkLoop] at hc
    split at hc
    · rcases List.mem_cons.mp hc with rfl | hc'
      · rcases hbuf with h | ⟨l, hl, heq⟩
        · exact Or.inl ((trim_length_le buf).trans h)
        · exact Or.inr ⟨l, hl, by rw [heq]⟩
      · exact ih line L hrest (Or.inr ⟨line, hline, rfl⟩) c hc'
    · rename_i hcond
      exact ih (buf ++ '\n' :: line) L hrest (Or.inl (by omega)) c hc

theorem prepNL_splitNL (s : Str) : prepNL (splitNL s) = '\n' :: s := by
  induction s with
  | nil => rfl
  | cons c rest ih =>
    simp only [splitNL]
    by_cases hc : c = '\n'
    · simp only [hc, if_pos rfl]
      simp only [prepNL, List.map_cons, List.flatten_cons] at ih ⊢
      simp [ih]
    · simp only [if_neg hc]
      rcases hr : splitNL rest with _ | ⟨h, t⟩
      · exact absurd hr (splitNL_ne_nil rest)
      · rw [hr] at ih
        simp only [prepNL, List.map_cons, List.flatten_cons] at ih ⊢
        simp only [List.cons_append, List.nil_append] at ih ⊢
        have ih2 : h ++ (t.map (fun l => '\n' :: l)).flatten = rest := by
          injection ih with _ ih2
        simp [List.headD, List.tail, ih2]

theorem chunkLoop_nosplit (max : Nat) :
    ∀ (ls : List Str) (buf : Str), (buf ++ prepNL ls).length ≤ max →
      chunkLoop max ls buf =
        if trimStr (buf ++ prepNL ls) = [] then [] else [trimStr (buf ++ prepNL ls)] := by
  intro ls
  induction ls with
  | nil =>
    intro buf _
    simp [chunkLoop, prepNL]
  | cons line rest ih =>
    intro buf hlen
    have hpre : prepNL (line :: rest) = '\n' :: line ++ prepNL rest := by
      simp [prepNL]
    rw [hpre] at hlen
    have hassoc : buf ++ ('\n' :: line ++ prepNL rest) = (buf ++ '\n' :: line) ++ prepNL rest := by
      simp
    rw [hassoc] at hlen
    have hcond : ¬ max < (buf ++ '\n' :: line).length := by
      have := List.length_append (buf ++ '\n' :: line) (prepNL rest)
      omega
    simp only [chunkLoop, if_neg hcond]
    rw [ih (buf ++ '\n' :: line) hlen, hpre, hassoc]

/-- **C7.** Chunker bound: every chunk either fits in `max` characters or is
the trim of a single source line (no newline inside it, no mid-line split);
and the chunks are exactly the trimmed newline-joins of a consecutive grouping
of the document's lines, in top-to-bottom order (the final group being dropped
when it trims to nothing, and `trim` being the only alteration applied to an
oversized line). -/
theorem chunk_respects_lines_and_bound (text : Str) (max : Nat) :
    ∃ groups : List (List Str),
      groups.flatten = splitNL (removeCR text) ∧
      chunk text max = emitGroups groups ∧
      ∀ c ∈ chunk text max,
        c.length ≤ max ∨ ('\n' ∉ c ∧ ∃ l ∈ splitNL (removeCR text), c = trimStr l) := by
  obtain ⟨groups, hne, hflat, heq⟩ :=
    chunkLoop_grouping max (splitNL (removeCR text)) [] [] (Or.inl ⟨rfl, rfl⟩)
  rw [List.nil_append] at hflat
  refine ⟨groups, hflat, heq, ?_⟩
  intro c hc
  have hbd := chunkLoop_bound max (splitNL (removeCR text)) [] (splitNL (removeCR text))
    (fun l hl => hl) (Or.inl (by simp)) c hc
  rcases hbd with h | ⟨l, hl, heq2⟩
  · exact Or.inl h
  · refine Or.inr ⟨?_, l, hl, heq2⟩
    intro hmem
    exact mem_splitNL_no_nl _ l hl (mem_trim _ _ (heq2 ▸ hmem))

/-- Witness for C7 at a concrete document. -/
theorem chunk_respects_lines_and_bound_witness :
    ∃ groups : List (List Str),
      groups.flatten = splitNL (removeCR "a\nb".data) ∧
      chunk "a\nb".data 900 = emitGroups groups ∧
      ∀ c ∈ chunk "a\nb".data 900,
        c.length ≤ 900 ∨ ('\n' ∉ c ∧ ∃ l ∈ splitNL (removeCR "a\nb".data), c = trimStr l) :=
  chunk_respects_lines_and_bound "a\nb".data 900

/-- **C8, counterexample.** The empty document is shorter than `maxSize` yet
yields zero chunks, not one: the final flush drops a buffer that trims to
nothing, so no chunk equal to the trimmed full text is produced. -/
theorem chunk_short_doc_counterexample :
    ("".data : Str).length < 900 ∧ chunk "".data 900 = [] ∧
      chunk "".data 900 ≠ [trimStr (removeCR "".data)] := by
  refine ⟨by decide, rfl, by decide⟩

/-- **C8, amended.** A document shorter than `maxSize` whose text (after the
carriage-return removal the chunker applies first) trims non-empty yields
exactly one chunk: its trimmed, CR-stripped full text.  (A document trimming
to whitespace only yields zero chunks, and carriage returns are removed
before chunking — both visible in the counterexample and in the code.) -/
theorem chunk_short_doc_single (text : Str) (max : Nat)
    (hlen : text.length < max) (hne : trimStr (removeCR text) ≠ []) :
    chunk text max = [trimStr (removeCR text)] := by
  have hlen2 : (removeCR text).length < max := by
    have := List.length_filter_le (fun c => decide (c ≠ '\r')) text
    simp only [removeCR]
    omega
  have hstep : (([] : Str) ++ prepNL (splitNL (removeCR text))).length ≤ max := by
    rw [List.nil_append, prepNL_splitNL]
    simp only [List.length_cons]
    omega
  have h := chunkLoop_nosplit max (splitNL (removeCR text)) [] hstep
  rw [List.nil_append, prepNL_splitNL, trim_nl] at h
  rw [chunk, h, if_neg hne]

/-- Witness for C8 (amended) at a concrete document. -/
theorem chunk_short_doc_single_witness :
    chunk " hi\nyou ".data 900 = [trimStr (removeCR " hi\nyou ".data)] :=
  chunk_short_doc_single " hi\nyou ".data 900 (by decide) (by decide)

/-- **C9.** If the first line of the document (after carriage-return removal)
is longer than `max` minus the separator, the first flush pushes the trimmed
initial empty buffer, so the empty string is emitted as a chunk. -/
theorem chunk_first_line_overflow_empty_chunk (text : Str) (max : Nat) (l0 : Str)
    (rest : List Str) (hsplit : splitNL (removeCR text) = l0 :: rest)
    (hlong : max < l0.length + 1) : [] ∈ chunk text max := by
  rw [chunk, hsplit]
  have hcond : max < (([] : Str) ++ '\n' :: l0).length := by
    simp only [List.nil_append, List.length_cons]
    omega
  simp only [chunkLoop, if_pos hcond]
  exact List.mem_cons_self _ _

/-- Witness for C9: a 4-character first line with `max = 3` produces an
empty-string chunk. -/
theorem chunk_first_line_overflow_empty_chunk_witness : [] ∈ chunk "abcd\nx".data 3 :=
  chunk_first_line_overflow_empty_chunk "abcd\nx".data 3 "abcd".data ["x".data]
    (by rfl) (by decide)

/-! ## C2: the content-addressed id -/

theorem sep_append_inj (c : Char) :
    ∀ (xs xs' ys ys' : List Char), c ∉ xs → c ∉ xs' →
      xs ++ c :: ys = xs' ++ c :: ys' → xs = xs' ∧ ys = ys' := by
  intro xs
  induction xs with
  | nil =>
    intro xs' ys ys' _ hx' heq
    cases xs' with
    | nil => simpa using heq
    | cons a as =>
      rw [List.nil_append, List.cons_append] at heq
      injection heq with h1 _
      exact absurd (h1 ▸ List.mem_cons_self a as) hx'
  | cons a as ih =>
    intro xs' ys ys' hx hx' heq
    cases xs' with
    | nil =>
      rw [List.cons_append, List.nil_append] at heq
      injection heq with h1 _
      exact absurd (h1 ▸ List.mem_cons_self a as) hx
    | cons a' as' =>
      rw [List.cons_append, List.cons_append] at heq
      injection heq with h1 h2
      obtain ⟨h3, h4⟩ := ih as' ys ys' (fun hm => hx (List.mem_cons_of_mem a hm))
        (fun hm => hx' (List.mem_cons_of_mem a' hm)) h2
      exact ⟨by rw [h1, h3], h4⟩

theorem bar_not_mem_bucket_str (b : Bucket) : '|' ∉ Bucket.str b := by
  cases b <;> decide

theorem bucket_str_inj (b b' : Bucket) (h : Bucket.str b = Bucket.str b') : b = b' := by
  cases b <;> cases b' <;> first | rfl | (exact absurd h (by decide))

/-- **C2, counterexample.** The `|` separator is ambiguous: two triples whose
`source` and `text` fields differ produce the same pre-hash string (and hence
the same id under the digest), because a `|` inside `source` shifts the field
boundary. -/
theorem preHash_separator_counterexample :
    preHash Bucket.base "a|b".data "c".data = preHash Bucket.base "a".data "b|c".data ∧
      ("a|b".data : Str) ≠ "a".data := by
  exact ⟨by decide, by decide⟩

/-- **C2, amended.** The id is a pure function of the triple, so equal triples
give equal ids on any run; equality is sensitive to every field exactly when
the `source` fields are separator-free: for sources not containing `|`, two
triples produce the same pre-hash string iff they are equal (the bucket labels
never contain `|`, and the text field is rightmost so it cannot shift a
boundary once the sources are unambiguous). -/
theorem preHash_eq_iff_of_sep_free (b b' : Bucket) (s s' t t' : Str)
    (hs : '|' ∉ s) (hs' : '|' ∉ s') :
    preHash b s t = preHash b' s' t' ↔ b = b' ∧ s = s' ∧ t = t' := by
  constructor
  · intro h
    obtain ⟨h1, h2⟩ := sep_append_inj '|' (Bucket.str b) (Bucket.str b') _ _
      (bar_not_mem_bucket_str b) (bar_not_mem_bucket_str b') h
    obtain ⟨h3, h4⟩ := sep_append_inj '|' s s' t t' hs hs' h2
    exact ⟨bucket_str_inj b b' h1, h3, h4⟩
  · rintro ⟨rfl, rfl, rfl⟩
    rfl

/-- Witness for C2 (amended) at concrete separator-free sources. -/
theorem preHash_eq_iff_of_sep_free_witness :
    (preHash Bucket.base "doc.md".data "t1".data = preHash Bucket.pub "doc.md".data "t1".data ↔
      Bucket.base = Bucket.pub ∧ ("doc.md".data : Str) = "doc.md".data ∧
        ("t1".data : Str) = "t1".data) :=
  preHash_eq_iff_of_sep_free Bucket.base Bucket.pub "doc.md".data "doc.md".data
    "t1".data "t1".data (by decide) (by decide)

/-! ## C10: unguarded cosine divisor -/

theorem cosineSums_na_zero (a : List ℚ) (ha : ∀ x ∈ a, x = 0) (b : List ℚ) :
    (cosineSums a b).2.1 = 0 := by
  induction a generalizing b with
  | nil => rfl
  | cons x xs ih =>
    have hx : x = 0 := ha x (List.mem_cons_self _ _)
    have hxs : ∀ y ∈ xs, y = 0 := fun y hy => ha y (List.mem_cons_of_mem _ hy)
    simp only [cosineSums, hx, ih hxs b.tail]
    ring

theorem cosineSums_nb_zero (b : List ℚ) (hb : ∀ x ∈ b, x = 0) (a : List ℚ) :
    (cosineSums a b).2.2 = 0 := by
  induction a generalizing b with
  | nil => rfl
  | cons x xs ih =>
    have hy : b.headD 0 = 0 := by
      cases b with
      | nil => rfl
      | cons y ys => exact hb y (List.mem_cons_self _ _)
    have htl : ∀ x ∈ b.tail, x = 0 := by
      cases b with
      | nil => simp
      | cons y ys => exact fun x hx => hb x (List.mem_cons_of_mem _ hx)
    simp only [cosineSums, hy, ih b.tail htl]
    ring

/-- **C10.** `cosine` has no guard against a zero-magnitude vector: when the
query vector or the candidate vector is all zeros (as summed over the loop's
indices), the divisor `Math.sqrt(na) * Math.sqrt(nb)` evaluates to zero, so
the score is computed as `dot / 0` — in the source's IEEE-754 arithmetic this
is `NaN`, a value the descending comparator of `query()`'s sort cannot order
(here, in `ℚ`, the total division is the modelling boundary; the division by
a zero divisor itself is what is proved).  `sq 0 = 0` is the only fact about
`Math.sqrt` used. -/
theorem cosine_zero_norm_divides_by_zero (sq : ℚ → ℚ) (h0 : sq 0 = 0) (a b : List ℚ)
    (h : (∀ x ∈ a, x = 0) ∨ (∀ x ∈ b, x = 0)) :
    sq (cosineSums a b).2.1 * sq (cosineSums a b).2.2 = 0 ∧
      cosine sq a b = (cosineSums a b).1 / 0 := by
  have hz : sq (cosineSums a b).2.1 * sq (cosineSums a b).2.2 = 0 := by
    rcases h with ha | hb
    · rw [cosineSums_na_zero a ha b, h0, zero_mul]
    · rw [cosineSums_nb_zero b hb a, h0, mul_zero]
  exact ⟨hz, by rw [cosine]; rw [hz]⟩

/-- Witness for C10: the zero query vector against a non-zero candidate, with
the identity standing in for the external square root (only `sq 0 = 0` is
used). -/
theorem cosine_zero_norm_divides_by_zero_witness :
    (fun q : ℚ => q) (cosineSums [0, 0] [1, 2]).2.1 *
        (fun q : ℚ => q) (cosineSums [0, 0] [1, 2]).2.2 = 0 ∧
      cosine (fun q : ℚ => q) [0, 0] [1, 2] = (cosineSums [0, 0] [1, 2]).1 / 0 :=
  cosine_zero_norm_divides_by_zero (fun q : ℚ => q) rfl [0, 0] [1, 2] (Or.inl (by decide))

/-! ## C1: cleanup leaves orphan embeddings -/

/-- **C1 (evidence of the divergence).** A store holding one chunk with its
embedding, rebuilt against a filesystem scan that no longer produces that
chunk: `build()` completes (successfully, with no embedding call), the stale
chunk row is deleted, but its embedding row survives — the `DELETE FROM
chunks` statements are the only cleanup issued and the schema has no cascade,
so after this completed `build()` the embedding's id has no corresponding
chunk row. -/
theorem build_leaves_orphan_embedding :
    (build (fun s => s) (fun _ => none) []
        ⟨[⟨"c1".data, Bucket.base, "s.md".data, "hello".data⟩],
          [⟨"c1".data, embModel, [(1 : ℚ)]⟩]⟩).1 =
      ⟨[], [⟨"c1".data, embModel, [(1 : ℚ)]⟩]⟩ ∧
    (build (fun s => s) (fun _ => none) []
        ⟨[⟨"c1".data, Bucket.base, "s.md".data, "hello".data⟩],
          [⟨"c1".data, embModel, [(1 : ℚ)]⟩]⟩).2 = (0, true) ∧
    ¬ (∀ e ∈ (build (fun s => s) (fun _ => none) []
          ⟨[⟨"c1".data, Bucket.base, "s.md".data, "hello".data⟩],
            [⟨"c1".data, embModel, [(1 : ℚ)]⟩]⟩).1.embeddings,
        ∃ c ∈ (build (fun s => s) (fun _ => none) []
          ⟨[⟨"c1".data, Bucket.base, "s.md".data, "hello".data⟩],
            [⟨"c1".data, embModel, [(1 : ℚ)]⟩]⟩).1.chunks, c.id = e.id) := by
  refine ⟨rfl, rfl, ?_⟩
  intro hall
  obtain ⟨c, hc, _⟩ := hall ⟨"c1".data, embModel, [(1 : ℚ)]⟩ (List.mem_singleton.mpr rfl)
  exact absurd hc (List.not_mem_nil c)

/-! ## Lemmas about the store operations -/

theorem batchesOfAux_fuel_irrel {α : Type _} (n : Nat) :
    ∀ (fuel fuel' : Nat) (l : List α), l.length ≤ fuel → l.length ≤ fuel' →
      batchesOfAux n fuel l = batchesOfAux n fuel' l := by
  intro fuel
  induction fuel with
  | zero =>
    intro fuel' l hl _
    have : l = [] := List.eq_nil_of_length_eq_zero (Nat.le_zero.mp hl)
    subst this
    cases fuel' <;> rfl
  | succ f ih =>
    intro fuel' l hl hl'
    cases l with
    | nil => cases fuel' <;> rfl
    | cons x xs =>
      cases fuel' with
      | zero => simp at hl'
      | succ f' =>
        simp only [batchesOfAux]
        rw [ih f' (xs.drop (n - 1))
          (by simp only [List.length_drop]; simp at hl; omega)
          (by simp only [List.length_drop]; simp at hl'; omega)]

theorem batchesOf_cons {α : Type _} (n : Nat) (x : α) (xs : List α) :
    batchesOf n (x :: xs) = (x :: xs.take (n - 1)) :: batchesOf n (xs.drop (n - 1)) := by
  simp only [batchesOf, List.length_cons, batchesOfAux]
  rw [batchesOfAux_fuel_irrel n xs.length (xs.drop (n - 1)).length (xs.drop (n - 1))
    (by simp [List.length_drop]) le_rfl]

theorem batchesOf_flatten {α : Type _} (n : Nat) (l : List α) :
    (batchesOf n l).flatten = l := by
  have aux : ∀ (fuel : Nat) (l : List α), l.length ≤ fuel →
      (batchesOfAux n fuel l).flatten = l := by
    intro fuel
    induction fuel with
    | zero =>
      intro l hl
      have : l = [] := List.eq_nil_of_length_eq_zero (Nat.le_zero.mp hl)
      subst this; rfl
    | succ f ih =>
      intro l hl
      cases l with
      | nil => rfl
      | cons x xs =>
        simp only [batchesOfAux, List.flatten_cons]
        rw [ih (xs.drop (n - 1)) (by simp only [List.length_drop]; simp at hl; omega)]
        simp [List.take_append_drop]
  exact aux l.length l le_rfl

theorem batchesOf_batch_length {α : Type _} (n : Nat) (hn : 1 ≤ n) (l : List α) :
    ∀ b ∈ batchesOf n l, b.length ≤ n := by
  have aux : ∀ (fuel : Nat) (l : List α) (b : List α), b ∈ batchesOfAux n fuel l →
      b.length ≤ n := by
    intro fuel
    induction fuel with
    | zero => intro l b hb; simp [batchesOfAux] at hb
    | succ f ih =>
      intro l b hb
      cases l with
      | nil => simp [batchesOfAux] at hb
      | cons x xs =>
        simp only [batchesOfAux, List.mem_cons] at hb
        rcases hb with rfl | hb
        · simp only [List.length_cons]
          have := List.length_take_le (n - 1) xs
          omega
        · exact ih _ b hb
  exact fun b hb => aux l.length l b hb

theorem cleanup_foldl_embeddings (bs : List (List Str)) :
    ∀ (acc : DB),
      (bs.foldl (fun acc batch =>
        { acc with chunks := acc.chunks.filter (fun c => decide (c.id ∉ batch)) }) acc).embeddings
        = acc.embeddings := by
  induction bs with
  | nil => intro acc; rfl
  | cons b bs ih => intro acc; rw [List.foldl_cons, ih]

theorem cleanup_embeddings (db : DB) (cur : List Str) :
    (cleanupStaleChunks db cur).embeddings = db.embeddings := by
  rw [cleanupStaleChunks]
  split
  · rfl
  · exact cleanup_foldl_embeddings _ db

theorem cleanup_foldl_chunks_mem (bs : List (List Str)) :
    ∀ (acc : DB) (c : ChunkRow),
      (c ∈ (bs.foldl (fun acc batch =>
        { acc with chunks := acc.chunks.filter (fun c => decide (c.id ∉ batch)) }) acc).chunks
        ↔ c ∈ acc.chunks ∧ ∀ b ∈ bs, c.id ∉ b) := by
  induction bs with
  | nil => intro acc c; simp
  | cons b bs ih =>
    intro acc c
    rw [List.foldl_cons, ih]
    simp only [List.mem_filter, decide_eq_true_eq, List.mem_cons]
    constructor
    · rintro ⟨⟨h1, h2⟩, h3⟩
      exact ⟨h1, fun b' hb' => by rcases hb' with rfl | hb' ; exact h2; exact h3 b' hb'⟩
    · rintro ⟨h1, h2⟩
      exact ⟨⟨h1, h2 b (Or.inl rfl)⟩, fun b' hb' => h2 b' (Or.inr hb')⟩

theorem cleanup_chunks_mem (db : DB) (cur : List Str) (c : ChunkRow) :
    c ∈ (cleanupStaleChunks db cur).chunks ↔ c ∈ db.chunks ∧ c.id ∈ cur := by
  rw [cleanupStaleChunks]
  split
  · rename_i hstale
    rw [List.isEmpty_iff] at hstale
    rw [List.filter_eq_nil_iff] at hstale
    constructor
    · intro hc
      refine ⟨hc, ?_⟩
      have := hstale c.id (List.mem_map_of_mem _ hc)
      simp only [decide_eq_true_eq, not_not] at this
      exact this
    · exact fun h => h.1
  · rename_i hstale
    rw [cleanup_foldl_chunks_mem]
    have hflat : ∀ (x : Str), (∀ b ∈ batchesOf 500 ((db.chunks.map (fun c => c.id)).filter
        (fun i => decide (i ∉ cur))), x ∉ b) ↔
        x ∉ (db.chunks.map (fun c => c.id)).filter (fun i => decide (i ∉ cur)) := by
      intro x
      rw [← batchesOf_flatten 500 ((db.chunks.map (fun c => c.id)).filter
        (fun i => decide (i ∉ cur)))]
      rw [batchesOf_flatten]
      constructor
      · intro hall hx
        rw [← batchesOf_flatten 500 ((db.chunks.map (fun c => c.id)).filter
          (fun i => decide (i ∉ cur))), List.mem_flatten] at hx
        obtain ⟨b, hb, hxb⟩ := hx
        exact hall b hb hxb
      · intro hx b hb hxb
        exact hx (by
          rw [← batchesOf_flatten 500 ((db.chunks.map (fun c => c.id)).filter
            (fun i => decide (i ∉ cur))), List.mem_flatten]
          exact ⟨b, hb, hxb⟩)
    constructor
    · rintro ⟨h1, h2⟩
      refine ⟨h1, ?_⟩
      have h3 := (hflat c.id).mp h2
      by_contra hcur
      exact h3 (by
        rw [List.mem_filter]
        exact ⟨List.mem_map_of_mem _ h1, by simpa using hcur⟩)
    · rintro ⟨h1, h2⟩
      refine ⟨h1, (hflat c.id).mpr ?_⟩
      intro hmem
      rw [List.mem_filter] at hmem
      simp only [decide_eq_true_eq] at hmem
      exact hmem.2 h2

theorem cleanup_noop (db : DB) (cur : List Str) (h : ∀ c ∈ db.chunks, c.id ∈ cur) :
    cleanupStaleChunks db cur = db := by
  rw [cleanupStaleChunks]
  have : ((db.chunks.map (fun c => c.id)).filter (fun i => decide (i ∉ cur))).isEmpty = true := by
    rw [List.isEmpty_iff, List.filter_eq_nil_iff]
    intro i hi
    rw [List.mem_map] at hi
    obtain ⟨c, hc, rfl⟩ := hi
    simpa using h c hc
  rw [if_pos this]

theorem upsert_embeddings (rows : List ChunkRow) :
    ∀ (db : DB), (upsertChunks db rows).embeddings = db.embeddings := by
  induction rows with
  | nil => intro db; rfl
  | cons r rest ih =>
    intro db
    rw [upsertChunks, List.foldl_cons]
    split
    · exact ih db
    · exact ih _

theorem upsert_chunks_mono (rows : List ChunkRow) :
    ∀ (db : DB) (c : ChunkRow), c ∈ db.chunks → c ∈ (upsertChunks db rows).chunks := by
  induction rows with
  | nil => intro db c hc; exact hc
  | cons r rest ih =>
    intro db c hc
    rw [upsertChunks, List.foldl_cons]
    split
    · exact ih db c hc
    · exact ih _ c (List.mem_append_left _ hc)

theorem upsert_mem_ids (rows : List ChunkRow) :
    ∀ (db : DB) (r : ChunkRow), r ∈ rows →
      r.id ∈ (upsertChunks db rows).chunks.map (fun c => c.id) := by
  induction rows with
  | nil => intro db r hr; simp at hr
  | cons r0 rest ih =>
    intro db r hr
    rcases List.mem_cons.mp hr with rfl | hr
    · rw [upsertChunks, List.foldl_cons]
      split
      · rename_i hany
        rw [List.any_eq_true] at hany
        obtain ⟨c, hc, hcid⟩ := hany
        simp only [decide_eq_true_eq] at hcid
        exact hcid ▸ List.mem_map_of_mem _ (upsert_chunks_mono rest db c hc)
      · exact List.mem_map_of_mem _
          (upsert_chunks_mono rest _ r (List.mem_append_right _ (List.mem_singleton.mpr rfl)))
    · rw [upsertChunks, List.foldl_cons]
      split
      · exact ih db r hr
      · exact ih _ r hr

theorem upsert_subset (rows : List ChunkRow) :
    ∀ (db : DB) (c : ChunkRow), c ∈ (upsertChunks db rows).chunks →
      c ∈ db.chunks ∨ c ∈ rows := by
  induction rows with
  | nil => intro db c hc; exact Or.inl hc
  | cons r rest ih =>
    intro db c hc
    rw [upsertChunks, List.foldl_cons] at hc
    have hc' : c ∈ (upsertChunks (if db.chunks.any (fun c => decide (c.id = r.id)) then db
        else { db with chunks := db.chunks ++ [r] }) rest).chunks := hc
    rcases ih _ c hc' with h | h
    · split at h
      · exact Or.inl h
      · rcases List.mem_append.mp h with h2 | h2
        · exact Or.inl h2
        · exact Or.inr (List.mem_cons.mpr (Or.inl (List.mem_singleton.mp h2)))
    · exact Or.inr (List.mem_cons_of_mem _ h)

theorem upsert_noop (rows : List ChunkRow) :
    ∀ (db : DB), (∀ r ∈ rows, r.id ∈ db.chunks.map (fun c => c.id)) →
      upsertChunks db rows = db := by
  induction rows with
  | nil => intro db _; rfl
  | cons r rest ih =>
    intro db hall
    have hr : r.id ∈ db.chunks.map (fun c => c.id) := hall r (List.mem_cons_self _ _)
    have hany : db.chunks.any (fun c => decide (c.id = r.id)) = true := by
      rw [List.any_eq_true]
      rw [List.mem_map] at hr
      obtain ⟨c, hc, hcid⟩ := hr
      exact ⟨c, hc, by simp [hcid]⟩
    rw [upsertChunks, List.foldl_cons, if_pos hany]
    exact ih db (fun r' hr' => hall r' (List.mem_cons_of_mem _ hr'))

theorem foldl_append_mem {β γ : Type _} (f : β → List γ) (bs : List β) :
    ∀ (init : List γ) (x : γ),
      (x ∈ bs.foldl (fun a b => a ++ f b) init ↔ x ∈ init ∨ ∃ b ∈ bs, x ∈ f b) := by
  induction bs with
  | nil => intro init x; simp
  | cons b bs ih =>
    intro init x
    rw [List.foldl_cons, ih]
    simp only [List.mem_append, List.mem_cons]
    constructor
    · rintro ((h | h) | ⟨b', hb', hx⟩)
      · exact Or.inl h
      · exact Or.inr ⟨b, Or.inl rfl, h⟩
      · exact Or.inr ⟨b', Or.inr hb', hx⟩
    · rintro (h | ⟨b', rfl | hb', hx⟩)
      · exact Or.inl (Or.inl h)
      · exact Or.inl (Or.inr hx)
      · exact Or.inr ⟨b', hb', hx⟩

theorem mem_missingIds (db : DB) (ids : List Str) (i : Str) :
    i ∈ missingIds db ids ↔
      i ∈ ids ∧ i ∈ db.chunks.map (fun c => c.id) ∧
        i ∉ db.embeddings.map (fun e => e.id) := by
  rw [missingIds, foldl_append_mem]
  simp only [List.not_mem_nil, false_or]
  constructor
  · rintro ⟨b, hb, hx⟩
    rw [List.mem_filter] at hx
    obtain ⟨hx1, hx2⟩ := hx
    rw [List.mem_dedup, List.mem_filter] at hx1
    simp only [decide_eq_true_eq] at hx1 hx2
    refine ⟨?_, hx1.1, hx2⟩
    rw [← batchesOf_flatten 500 ids, List.mem_flatten]
    exact ⟨b, hb, hx1.2⟩
  · rintro ⟨h1, h2, h3⟩
    rw [← batchesOf_flatten 500 ids, List.mem_flatten] at h1
    obtain ⟨b, hb, hib⟩ := h1
    refine ⟨b, hb, ?_⟩
    rw [List.mem_filter, List.mem_dedup, List.mem_filter]
    exact ⟨⟨h2, by simpa using hib⟩, by simpa using h3⟩

theorem insertEmbBatch_some (rows : List EmbRow) :
    ∀ (l l' : List EmbRow), insertEmbBatch l rows = some l' → l' = l ++ rows := by
  induction rows with
  | nil =>
    intro l l' h
    simp only [insertEmbBatch, List.foldlM_nil] at h
    have h2 : some l = some l' := h
    injection h2 with h3
    simp [← h3]
  | cons r rest ih =>
    intro l l' h
    simp only [insertEmbBatch, List.foldlM_cons] at h
    rcases hr : insertEmbRow l r with _ | l1
    · rw [hr] at h; simp at h
    · rw [hr] at h
      have h2 : List.foldlM insertEmbRow l1 rest = some l' := h
      have h1 : l1 = l ++ [r] := by
        rw [insertEmbRow] at hr
        split at hr
        · simp at hr
        · simpa using hr.symm
      have h3 := ih l1 l' h2
      rw [h3, h1]
      simp

theorem mkEmbRows_ids (b : List Str) (v : List (List ℚ)) (hlen : b.length ≤ v.length) :
    (mkEmbRows b v).map (fun e => e.id) = b := by
  rw [mkEmbRows, List.map_map]
  have : ((fun e : EmbRow => e.id) ∘ fun q : Str × List ℚ => (⟨q.1, embModel, q.2⟩ : EmbRow))
      = Prod.fst := rfl
  rw [this]
  exact List.map_fst_zip b v hlen

theorem embedPhase_spec (provider : List Str → Option (List (List ℚ))) (tf : Str → Str) :
    ∀ (B : List (List Str)) (db : DB),
      ∃ j, j ≤ B.length ∧
        (embedPhase provider tf B db).1.chunks = db.chunks ∧
        (embedPhase provider tf B db).1.embeddings =
          db.embeddings ++ ((B.take j).map (batchRows provider tf)).flatten ∧
        ((embedPhase provider tf B db).2.2 = true → j = B.length) ∧
        (embedPhase provider tf B db).2.1 =
          (if (embedPhase provider tf B db).2.2 = true then B.length else j + 1) := by
  intro B
  induction B with
  | nil =>
    intro db
    exact ⟨0, le_rfl, rfl, by simp [embedPhase], fun _ => rfl, rfl⟩
  | cons batch rest ih =>
    intro db
    rcases hp : provider (batch.map tf) with _ | vecs
    · refine ⟨0, by simp, ?_, ?_, ?_, ?_⟩ <;> simp only [embedPhase, hp] <;> try simp
    · rcases hi : insertEmbBatch db.embeddings (mkEmbRows batch vecs) with _ | embs
      · refine ⟨0, by simp, ?_, ?_, ?_, ?_⟩ <;> simp only [embedPhase, hp, hi] <;> try simp
      · obtain ⟨j', h1, h2, h3, h4, h5⟩ := ih { db with embeddings := embs }
        have hembs : embs = db.embeddings ++ mkEmbRows batch vecs :=
          insertEmbBatch_some _ _ _ hi
        have hres : embedPhase provider tf (batch :: rest) db =
            ((embedPhase provider tf rest { db with embeddings := embs }).1,
             (embedPhase provider tf rest { db with embeddings := embs }).2.1 + 1,
             (embedPhase provider tf rest { db with embeddings := embs }).2.2) := by
          simp only [embedPhase, hp, hi]
        refine ⟨j' + 1, by simp only [List.length_cons]; omega, ?_, ?_, ?_, ?_⟩
        · rw [hres]
          exact h2
        · rw [hres]
          simp only [List.take_succ_cons, List.map_cons, List.flatten_cons]
          rw [h3, hembs, batchRows, hp]
          simp
        · rw [hres]
          intro hok
          have := h4 hok
          simp only [List.length_cons]
          omega
        · rw [hres]
          rcases hok : (embedPhase provider tf rest { db with embeddings := embs }).2.2 with _ | _
          · rw [hok] at h5
            simp only [Bool.false_eq_true, if_false] at h5 ⊢
            omega
          · rw [hok] at h5
            simp at h5 ⊢
            omega

theorem embedPhase_success_covers (provider : List Str → Option (List (List ℚ))) (tf : Str → Str)
    (hprov : ∀ inputs vecs, provider inputs = some vecs → vecs.length = inputs.length) :
    ∀ (B : List (List Str)) (db : DB), (embedPhase provider tf B db).2.2 = true →
      ∀ i ∈ B.flatten, i ∈ (embedPhase provider tf B db).1.embeddings.map (fun e => e.id) := by
  intro B
  induction B with
  | nil => intro db _ i hi; simp at hi
  | cons batch rest ih =>
    intro db hok i hi
    rcases hp : provider (batch.map tf) with _ | vecs
    · rw [show (embedPhase provider tf (batch :: rest) db) = (db, 1, false) by
        simp only [embedPhase, hp]] at hok
      simp at hok
    · rcases hins : insertEmbBatch db.embeddings (mkEmbRows batch vecs) with _ | embs
      · rw [show (embedPhase provider tf (batch :: rest) db) = (db, 1, false) by
          simp only [embedPhase, hp, hins]] at hok
        simp at hok
      · have hres : embedPhase provider tf (batch :: rest) db =
            ((embedPhase provider tf rest { db with embeddings := embs }).1,
             (embedPhase provider tf rest { db with embeddings := embs }).2.1 + 1,
             (embedPhase provider tf rest { db with embeddings := embs }).2.2) := by
          simp only [embedPhase, hp, hins]
        rw [hres] at hok ⊢
        have hok' : (embedPhase provider tf rest { db with embeddings := embs }).2.2 = true := hok
        rw [List.flatten_cons, List.mem_append] at hi
        rcases hi with hib | hirest
        · -- the id was inserted with this batch; embeddings only grow afterwards
          have hlen : batch.length ≤ vecs.length := by
            rw [hprov (batch.map tf) vecs hp, List.length_map]
          have hmem : i ∈ embs.map (fun e => e.id) := by
            rw [insertEmbBatch_some _ _ _ hins, List.map_append, List.mem_append,
              mkEmbRows_ids batch vecs hlen]
            exact Or.inr hib
          obtain ⟨j', _, _, h3, _, _⟩ := embedPhase_spec provider tf rest { db with embeddings := embs }
          rw [h3, List.map_append, List.mem_append]
          exact Or.inl hmem
        · exact ih { db with embeddings := embs } hok' i hirest

/-- **C4.** Idempotence of `build()`: if a `build()` over some documents
completes successfully, running `build()` again over the same documents from
the resulting store makes zero embedding-provider calls and returns the store
unchanged (in particular both relations keep their row counts): the diff of
missing embeddings is empty, so the second run returns before any external
call.  The provider is assumed to honour its declared interface (one vector
per input, in order). -/
theorem build_idempotent (h : Str → Str) (provider : List Str → Option (List (List ℚ)))
    (docs : List Doc) (db : DB)
    (hprov : ∀ inputs vecs, provider inputs = some vecs → vecs.length = inputs.length)
    (hok : (build h provider docs db).2.2 = true) :
    build h provider docs (build h provider docs db).1 =
      ((build h provider docs db).1, 0, true) := by
  set rows := rowsOf h docs with hrows
  set ids := rows.map (fun r => r.id) with hids
  set db2 := upsertChunks (cleanupStaleChunks db ids) rows with hdb2
  set m := missingIds db2 ids with hm0
  have hbuild : build h provider docs db =
      (if m.isEmpty then (db2, 0, true)
       else embedPhase provider (textOf rows) (batchesOf 96 m) db2) := rfl
  set D := (build h provider docs db).1 with hD
  -- the chunks relation after the first build is exactly the upserted one
  have hF1 : D.chunks = db2.chunks := by
    by_cases hm : m.isEmpty
    · rw [hD, hbuild, if_pos hm]
    · rw [hD, hbuild, if_neg hm]
      obtain ⟨j, _, hch, _, _, _⟩ := embedPhase_spec provider (textOf rows) (batchesOf 96 m) db2
      exact hch
  -- every chunk row surviving the first build carries a current id
  have hF2 : ∀ c ∈ db2.chunks, c.id ∈ ids := by
    intro c hc
    rcases upsert_subset rows (cleanupStaleChunks db ids) c hc with h1 | h1
    · exact ((cleanup_chunks_mem db ids c).mp h1).2
    · rw [hids]
      exact List.mem_map_of_mem _ h1
  -- every current id is present in the upserted chunks relation
  have hF3 : ∀ i ∈ ids, i ∈ db2.chunks.map (fun c => c.id) := by
    intro i hi
    rw [hids, List.mem_map] at hi
    obtain ⟨r, hr, rfl⟩ := hi
    exact upsert_mem_ids rows (cleanupStaleChunks db ids) r hr
  -- after a successful first build every current id has an embedding row
  have hF5 : ∀ i ∈ ids, i ∈ D.embeddings.map (fun e => e.id) := by
    intro i hi
    by_cases hie : i ∈ db2.embeddings.map (fun e => e.id)
    · by_cases hm : m.isEmpty
      · rw [hD, hbuild, if_pos hm]
        exact hie
      · rw [hD, hbuild, if_neg hm]
        obtain ⟨j, _, _, hemb, _, _⟩ :=
          embedPhase_spec provider (textOf rows) (batchesOf 96 m) db2
        rw [hemb, List.map_append, List.mem_append]
        exact Or.inl hie
    · have him : i ∈ m := (mem_missingIds db2 ids i).mpr ⟨hi, hF3 i hi, hie⟩
      by_cases hm : m.isEmpty
      · rw [List.isEmpty_iff] at hm
        rw [hm] at him
        simp at him
      · have hok2 : (embedPhase provider (textOf rows) (batchesOf 96 m) db2).2.2 = true := by
          have := hok
          rw [hbuild, if_neg hm] at this
          exact this
        have := embedPhase_success_covers provider (textOf rows) hprov (batchesOf 96 m) db2
          hok2 i (by rw [batchesOf_flatten]; exact him)
        rw [hD, hbuild, if_neg hm]
        exact this
  -- the second run's cleanup, upsert and diff are all no-ops
  have hclean2 : cleanupStaleChunks D ids = D :=
    cleanup_noop D ids (fun c hc => hF2 c (hF1 ▸ hc))
  have hupsert2 : upsertChunks D rows = D :=
    upsert_noop rows D (fun r hr => by rw [hF1]; exact upsert_mem_ids rows _ r hr)
  have hmiss2 : missingIds D ids = [] := by
    rw [List.eq_nil_iff_forall_not_mem]
    intro i him2
    rw [mem_missingIds] at him2
    exact him2.2.2 (hF5 i him2.1)
  have hbuild2 : build h provider docs D =
      (if (missingIds (upsertChunks (cleanupStaleChunks D ids) rows) ids).isEmpty then
        (upsertChunks (cleanupStaleChunks D ids) rows, 0, true)
       else
        embedPhase provider (textOf rows)
          (batchesOf 96 (missingIds (upsertChunks (cleanupStaleChunks D ids) rows) ids))
          (upsertChunks (cleanupStaleChunks D ids) rows)) := rfl
  rw [hclean2, hupsert2, hmiss2] at hbuild2
  simpa using hbuild2

/-- Witness for C4: a one-document corpus built from an empty store; the
second build returns the first build's store with zero provider calls. -/
theorem build_idempotent_witness :
    build (fun s => s) (fun ts => some (ts.map (fun _ => [(1 : ℚ)])))
      [⟨"k/base/a.md".data, "hi".data, "k/base/a.md".data, Bucket.base⟩]
      ((build (fun s => s) (fun ts => some (ts.map (fun _ => [(1 : ℚ)])))
        [⟨"k/base/a.md".data, "hi".data, "k/base/a.md".data, Bucket.base⟩] ⟨[], []⟩).1) =
    ((build (fun s => s) (fun ts => some (ts.map (fun _ => [(1 : ℚ)])))
        [⟨"k/base/a.md".data, "hi".data, "k/base/a.md".data, Bucket.base⟩] ⟨[], []⟩).1,
      0, true) :=
  build_idempotent (fun s => s) (fun ts => some (ts.map (fun _ => [(1 : ℚ)])))
    [⟨"k/base/a.md".data, "hi".data, "k/base/a.md".data, Bucket.base⟩] ⟨[], []⟩
    (fun inputs vecs hv => by injection hv with hv2; rw [← hv2, List.length_map])
    (by decide)

/-- **C6.** Batched embedding with per-batch atomicity: the missing ids are
partitioned into consecutive batches of at most 96; the embedding phase makes
exactly one provider call per batch (on success, one per batch overall —
never one per chunk), commits each batch's rows (keyed by id and `EMB_MODEL`,
via `batchRows`/`mkEmbRows`) in one transaction, and on a batch failure the
store keeps exactly the previously committed batches: the final embeddings
relation is the initial one extended by the rows of a prefix of the batch
list, the prefix being everything exactly when the phase succeeds; and
`build()` enters this phase on the 96-batching of its missing-id diff. -/
theorem build_batched_embedding :
    (∀ missing : List Str, (batchesOf 96 missing).flatten = missing ∧
      ∀ b ∈ batchesOf 96 missing, b.length ≤ 96) ∧
    (∀ (provider : List Str → Option (List (List ℚ))) (tf : Str → Str)
        (B : List (List Str)) (db : DB),
      ∃ j, j ≤ B.length ∧
        (embedPhase provider tf B db).1.chunks = db.chunks ∧
        (embedPhase provider tf B db).1.embeddings =
          db.embeddings ++ ((B.take j).map (batchRows provider tf)).flatten ∧
        ((embedPhase provider tf B db).2.2 = true → j = B.length) ∧
        (embedPhase provider tf B db).2.1 =
          (if (embedPhase provider tf B db).2.2 = true then B.length else j + 1)) ∧
    (∀ (h : Str → Str) (provider : List Str → Option (List (List ℚ)))
        (docs : List Doc) (db : DB),
      (missingIds (upsertChunks (cleanupStaleChunks db ((rowsOf h docs).map (fun r => r.id)))
          (rowsOf h docs)) ((rowsOf h docs).map (fun r => r.id))).isEmpty = false →
      build h provider docs db =
        embedPhase provider (textOf (rowsOf h docs))
          (batchesOf 96 (missingIds (upsertChunks (cleanupStaleChunks db
            ((rowsOf h docs).map (fun r => r.id))) (rowsOf h docs))
            ((rowsOf h docs).map (fun r => r.id))))
          (upsertChunks (cleanupStaleChunks db ((rowsOf h docs).map (fun r => r.id)))
            (rowsOf h docs))) := by
  refine ⟨fun missing => ⟨batchesOf_flatten 96 missing,
    batchesOf_batch_length 96 (by omega) missing⟩,
    fun provider tf => embedPhase_spec provider tf, ?_⟩
  intro h provider docs db hne
  have hbuild : build h provider docs db =
      (if (missingIds (upsertChunks (cleanupStaleChunks db ((rowsOf h docs).map (fun r => r.id)))
            (rowsOf h docs)) ((rowsOf h docs).map (fun r => r.id))).isEmpty then
        (upsertChunks (cleanupStaleChunks db ((rowsOf h docs).map (fun r => r.id)))
          (rowsOf h docs), 0, true)
       else
        embedPhase provider (textOf (rowsOf h docs))
          (batchesOf 96 (missingIds (upsertChunks (cleanupStaleChunks db
            ((rowsOf h docs).map (fun r => r.id))) (rowsOf h docs))
            ((rowsOf h docs).map (fun r => r.id))))
          (upsertChunks (cleanupStaleChunks db ((rowsOf h docs).map (fun r => r.id)))
            (rowsOf h docs))) := rfl
  rw [hbuild, if_neg (by rw [hne]; exact Bool.false_ne_true)]

/-- Witness for C6 at a concrete missing-id list. -/
theorem build_batched_embedding_witness :
    (batchesOf 96 ["i1".data]).flatten = ["i1".data] ∧
      ∀ b ∈ batchesOf 96 ["i1".data], b.length ≤ 96 :=
  build_batched_embedding.1 ["i1".data]

/-! ## Lemmas about the query path -/

theorem mem_insertDesc (x y : ℚ × Str) (l : List (ℚ × Str)) :
    y ∈ insertDesc x l ↔ y = x ∨ y ∈ l := by
  induction l with
  | nil => simp [insertDesc]
  | cons z zs ih =>
    rw [insertDesc]
    split
    · simp
    · rw [List.mem_cons, ih, List.mem_cons]
      tauto

theorem mem_sortDesc (y : ℚ × Str) (l : List (ℚ × Str)) : y ∈ sortDesc l ↔ y ∈ l := by
  induction l with
  | nil => simp [sortDesc]
  | cons z zs ih =>
    rw [sortDesc, mem_insertDesc, ih, List.mem_cons]

theorem query_provenance (sq : ℚ → ℚ) (db : DB) (qv : List ℚ) (k : Nat)
    (allowed : List Bucket) (t : Str) (ht : t ∈ query sq db qv k allowed) :
    ∃ c, c ∈ db.chunks ∧ c.bucket ∈ allowed ∧ c.text = t := by
  simp only [query] at ht
  rw [List.mem_map] at ht
  obtain ⟨r, hr, hteq⟩ := ht
  have hr2 : r ∈ sortDesc ((candidates db allowed).map (fun r => (cosine sq qv r.2, r.1))) :=
    List.Sublist.mem hr (List.take_sublist _ _)
  have hr3 := (mem_sortDesc _ _).mp hr2
  rw [List.mem_map] at hr3
  obtain ⟨cand, hcand, hcr⟩ := hr3
  have hct : cand.1 = t := by rw [← hteq, ← hcr]
  rw [candidates, List.mem_flatMap] at hcand
  obtain ⟨c, hc, hcand2⟩ := hcand
  rw [List.mem_map] at hcand2
  obtain ⟨e, _, hce⟩ := hcand2
  rw [List.mem_filter] at hc
  refine ⟨c, hc.1, by simpa using hc.2, ?_⟩
  rw [← hct, ← hce]

/-- **C3.** Bucket isolation of `query()`: every text returned by
`query(text, k, {base, public})` is the text of a chunk row whose bucket is a
member of the allowed list — matched by exact equality on the bucket value,
with no hierarchy — and in particular that row's bucket is never `private`.
(Texts are not unique across rows, so provenance is stated as the existence of
an allowed-bucket row carrying the returned text: the candidate `SELECT`
filters on `bucket IN (allowed)` before scoring.) -/
theorem query_bucket_isolation (sq : ℚ → ℚ) (db : DB) (qv : List ℚ) (k : Nat) (t : Str)
    (ht : t ∈ query sq db qv k [Bucket.base, Bucket.pub]) :
    ∃ c, c ∈ db.chunks ∧ (c.bucket = Bucket.base ∨ c.bucket = Bucket.pub) ∧
      c.bucket ≠ Bucket.priv ∧ c.text = t := by
  obtain ⟨c, hc, hb, htx⟩ := query_provenance sq db qv k [Bucket.base, Bucket.pub] t ht
  rcases List.mem_cons.mp hb with h1 | h1
  · exact ⟨c, hc, Or.inl h1, by rw [h1]; exact fun hcon => Bucket.noConfusion hcon, htx⟩
  · have h2 : c.bucket = Bucket.pub := List.mem_singleton.mp h1
    exact ⟨c, hc, Or.inr h2, by rw [h2]; exact fun hcon => Bucket.noConfusion hcon, htx⟩

/-- Witness for C3 at a concrete store holding one base-bucket chunk. -/
theorem query_bucket_isolation_witness :
    ∃ c, c ∈ (DB.mk [⟨"i".data, Bucket.base, "s.md".data, "hello".data⟩]
        [⟨"i".data, embModel, [(1 : ℚ)]⟩]).chunks ∧
      (c.bucket = Bucket.base ∨ c.bucket = Bucket.pub) ∧ c.bucket ≠ Bucket.priv ∧
      c.text = "hello".data :=
  query_bucket_isolation (fun q => q)
    (DB.mk [⟨"i".data, Bucket.base, "s.md".data, "hello".data⟩]
      [⟨"i".data, embModel, [(1 : ℚ)]⟩])
    [(1 : ℚ)] 1 "hello".data (by decide)

/-! ## Lemmas about the loader -/

/-- **C5, counterexample.** A `statSync` failure on an entry of an *existing*
bucket directory does not propagate: the catch that was meant for missing
buckets swallows it, and `build()`'s loading step completes with an `ok`
(here even empty) result instead of aborting. -/
theorem loadKnowledge_swallows_stat_error :
    loadKnowledge "k".data ⟨FS.dirOk [("a.md".data, none)], FS.absent, FS.absent⟩ =
      Except.ok [] := rfl

theorem readDocs_not_ok (b : Bucket) :
    ∀ (files : List (Str × FS)), files.any (fun q => isErrFile q.2) = true →
      exceptOk (readDocs b files) = false := by
  intro files
  induction files with
  | nil => intro h; simp at h
  | cons q rest ih =>
    intro h
    rcases q with ⟨path, node⟩
    rcases node with content | entries | msg | _
    · rcases content with e | c
      · -- the read of this file throws: the whole loader run fails here
        rfl
      · -- a readable file: the outcome is that of the remaining reads
        have hfix : isErrFile (FS.file (Except.ok c)) = false := rfl
        have hrest : rest.any (fun q => isErrFile q.2) = true := by
          simp only [List.any_cons, hfix, Bool.false_or] at h
          exact h
        have hr := ih hrest
        simp only [readDocs]
        split
        · rfl
        · rename_i ds heq
          rw [heq] at hr
          simp [exceptOk] at hr
    · rfl
    · rfl
    · rfl

/-- **C5, amended.** Filesystem error discipline as implemented: a missing
bucket directory yields zero entries and no error; but an I/O error *during
traversal of an existing directory* is also swallowed — a `statSync` failure
mid-listing silently truncates the walk to the entries already collected
(`walk` is total and never throws) — and only an error while *reading a
matched file's contents* propagates out of the loader and aborts `build()`. -/
theorem loader_error_discipline :
    (∀ p : Str, walk FS.absent p = []) ∧
    (∀ (p : Str) (es1 : List (Str × Option FS)) (name : Str)
        (es2 : List (Str × Option FS)),
      walkEntries p (es1 ++ (name, none) :: es2) = walkEntries p es1) ∧
    (∀ (rootPath : Str) (root : Root),
      ((walk root.base (joinP rootPath (Bucket.str .base)) ++
        walk root.pub (joinP rootPath (Bucket.str .pub)) ++
        walk root.priv (joinP rootPath (Bucket.str .priv))).any
          (fun q => isErrFile q.2)) = true →
      exceptOk (loadKnowledge rootPath root) = false) := by
  refine ⟨fun _ => rfl, ?_, ?_⟩
  · intro p es1 name es2
    induction es1 with
    | nil => rfl
    | cons q rest ih =>
      rcases q with ⟨n, oe⟩
      rcases oe with _ | fs
      · rfl
      · rw [List.cons_append]
        simp only [walkEntries]
        rw [ih]
  · intro rootPath root hany
    simp only [List.any_append, Bool.or_eq_true] at hany
    rcases hb1 : readDocs .base (walk root.base (joinP rootPath (Bucket.str .base)))
      with e | a
    · simp only [loadKnowledge, hb1, exceptOk]
    · rcases hany with (h1 | h2) | h3
      · exact absurd (by rw [hb1]; rfl : exceptOk (readDocs .base
          (walk root.base (joinP rootPath (Bucket.str .base)))) = true)
          (by rw [readDocs_not_ok .base _ h1]; exact Bool.false_ne_true)
      · rcases hb2 : readDocs .pub (walk root.pub (joinP rootPath (Bucket.str .pub)))
          with e | a2
        · simp only [loadKnowledge, hb1, hb2, exceptOk]
        · exact absurd (by rw [hb2]; rfl : exceptOk (readDocs .pub
            (walk root.pub (joinP rootPath (Bucket.str .pub)))) = true)
            (by rw [readDocs_not_ok .pub _ h2]; exact Bool.false_ne_true)
      · rcases hb2 : readDocs .pub (walk root.pub (joinP rootPath (Bucket.str .pub)))
          with e | a2
        · simp only [loadKnowledge, hb1, hb2, exceptOk]
        · rcases hb3 : readDocs .priv (walk root.priv (joinP rootPath (Bucket.str .priv)))
            with e | a3
          · simp only [loadKnowledge, hb1, hb2, hb3, exceptOk]
          · exact absurd (by rw [hb3]; rfl : exceptOk (readDocs .priv
              (walk root.priv (joinP rootPath (Bucket.str .priv)))) = true)
              (by rw [readDocs_not_ok .priv _ h3]; exact Bool.false_ne_true)

/-- Witness for C5 (amended): a base bucket whose only file read fails makes
the loader fail. -/
theorem loader_error_discipline_witness :
    exceptOk (loadKnowledge "k".data
      ⟨FS.dirOk [("a.md".data, some (FS.file (Except.error "EIO".data)))],
        FS.absent, FS.absent⟩) = false :=
  loader_error_discipline.2.2 "k".data
    ⟨FS.dirOk [("a.md".data, some (FS.file (Except.error "EIO".data)))],
      FS.absent, FS.absent⟩ (by decide)
